import Mathlib

/-!
# Scene-graph transform resolution: a shallow embedding

This file embeds `update_parent_transform_matrix_system` and its recursive
helper `update_transform_matrix` from
`src/hotham/src/systems/update_parent_transform_matrix.rs`, and proves the
spec's claims about the hierarchy-resolution pass against that embedding.

Embedding choices:

* hecs entities are opaque ids; we model them as `Nat`.
* The entity store (`hecs::World`) is a `Store`: the list of live entities in
  store iteration order, plus the two component columns the pass touches —
  `Parent` (an optional parent entity id) and `TransformMatrix` (an optional
  matrix).  A single `TransformMatrix` component serves as both the local and
  the world matrix in the source; the pass overwrites it in place.
* `nalgebra::Matrix4<f32>` is modelled by an arbitrary type `M` with a
  multiplication; the pass only ever multiplies and copies matrices, so every
  claim here is about those operations, never about the entries. Concrete
  instances use `M := Nat`.
* The `unwrap` on a missing `TransformMatrix` component (a Rust panic) is the
  `panicked` outcome; the recursion is driven by fuel, and running out of fuel
  is the distinct `outOfFuel` outcome, which models the unbounded-recursion /
  stack-exhaustion failure mode the spec discusses.
-/

namespace Coldham

set_option linter.unusedSectionVars false

/-- Outcome of one invocation of the resolution pass: the final
`TransformMatrix` column, a fatal `unwrap` panic, or fuel exhaustion
(the model's stand-in for unbounded recursion). -/
inductive PassResult (M : Type) where
  | ok : (Nat → Option M) → PassResult M
  | panicked : PassResult M
  | outOfFuel : PassResult M

/-- `hecs::World`, restricted to what the pass reads and writes: the live
entities in store iteration order, the `Parent` component column and the
`TransformMatrix` component column. -/
structure Store (M : Type) where
  entities : List Nat
  parent : Nat → Option Nat
  matrix : Nat → Option M

variable {M : Type} [Mul M]

/-- The hierarchy-building loop (lines 17–21 of the source): iterate the
entities holding a `Parent` in store order and push each one onto its
parent's child list. -/
def buildHierarchy (s : Store M) : Nat → List Nat :=
  s.entities.foldl
    (fun h e =>
      match s.parent e with
      | some p => fun q => if q = p then h q ++ [e] else h q
      | none => h)
    (fun _ => [])

/-- The `roots_query` (`Without<Parent, &TransformMatrix>`): entities holding
a `TransformMatrix` but no `Parent`, in store iteration order. -/
def rootsList (s : Store M) : List Nat :=
  s.entities.filter (fun e => (s.parent e).isNone && (s.matrix e).isSome)

/-- The `for child in children` loop of `update_transform_matrix` (lines
36–43): unwrap the child's `TransformMatrix` (panicking when absent),
overwrite it with `parent_matrix * child_matrix`, recurse into the child —
through the supplied `visit`, which is the recursive call one stack frame
deeper — with the just-written value, then continue with the remaining
children. -/
def visitChildren (visit : M → Nat → (Nat → Option M) → PassResult M) :
    M → List Nat → (Nat → Option M) → PassResult M
  | _, [], mats => .ok mats
  | pm, c :: rest, mats =>
    match mats c with
    | none => .panicked
    | some cm =>
      match visit (pm * cm) c (fun x => if x = c then some (pm * cm) else mats x) with
      | .ok mats2 => visitChildren visit pm rest mats2
      | r => r

/-- `update_transform_matrix` (lines 29–45): look up `entity`'s children in
the hierarchy map and process them.  Fuel models the call stack; each
recursion step descends one level. -/
def visitEnt (h : Nat → List Nat) : Nat → M → Nat → (Nat → Option M) → PassResult M
  | 0, _, _, _ => .outOfFuel
  | fuel + 1, pm, e, mats =>
    visitChildren (fun pm' c m' => visitEnt h fuel pm' c m') pm (h e) mats

/-- The root loop (lines 23–26): for each root, read its matrix (the query
yields the component, which is therefore present) and walk its subtree. -/
def runRoots (h : Nat → List Nat) (fuel : Nat) :
    List Nat → (Nat → Option M) → PassResult M
  | [], mats => .ok mats
  | r :: rs, mats =>
    match mats r with
    | none => .panicked
    | some pm =>
      match visitEnt h fuel pm r mats with
      | .ok mats2 => runRoots h fuel rs mats2
      | res => res

/-- The pass at an explicit fuel bound. -/
def runWithFuel (s : Store M) (fuel : Nat) : PassResult M :=
  runRoots (buildHierarchy s) fuel (rootsList s) s.matrix

/-- `update_parent_transform_matrix_system` (lines 11–27): build the
hierarchy map, then walk every root's subtree.  The default fuel
`|entities| + 1` bounds the recursion depth; the termination theorems show it
is never exhausted. -/
def update_parent_transform_matrix_system (s : Store M) : PassResult M :=
  runWithFuel s (s.entities.length + 1)

/-- The matrix column after a successful pass (and `none` entries after a
fatal one). -/
def passMatrixAt (s : Store M) (x : Nat) : Option M :=
  match update_parent_transform_matrix_system s with
  | .ok m => m x
  | _ => none

/-- The store after one invocation of the pass: only the `TransformMatrix`
column changes.  After a fatal outcome the process is gone; we return the
store unchanged and always guard uses with the pass having succeeded. -/
def passStore (s : Store M) : Store M :=
  match update_parent_transform_matrix_system s with
  | .ok m => { s with matrix := m }
  | _ => s

/-- `PassResult.isOk`. -/
def PassResult.isOk : PassResult M → Bool
  | .ok _ => true
  | _ => false

/-- Observational equivalence of two pass outcomes: same outcome kind, and
for successful runs pointwise-equal matrix columns. -/
def PassEquiv : PassResult M → PassResult M → Prop
  | .ok m, .ok m' => ∀ x, m x = m' x
  | .panicked, .panicked => True
  | .outOfFuel, .outOfFuel => True
  | _, _ => False

/-- A root in the sense of the pass: a live entity holding a
`TransformMatrix` but no `Parent`. -/
def isRootEnt (s : Store M) (e : Nat) : Prop :=
  e ∈ s.entities ∧ s.parent e = none ∧ (s.matrix e).isSome = true

/-- `RChain s x P`: `P` is the parent chain of `x` listed upward,
`P = x :: ancestors`, ending at a root.  Each link is a live entity; the
terminal entity is parentless and holds a matrix (it is a root the pass
iterates). -/
inductive RChain (s : Store M) : Nat → List Nat → Prop where
  | root : ∀ e, e ∈ s.entities → s.parent e = none →
      (s.matrix e).isSome = true → RChain s e [e]
  | step : ∀ x p P, x ∈ s.entities → s.parent x = some p → RChain s p P →
      RChain s x (x :: P)

/-- `Below s e x`: following parents upward from `x` reaches `e` (through
live entities); equivalently, `x` lies in `e`'s subtree. -/
inductive Below (s : Store M) (e : Nat) : Nat → Prop where
  | refl : Below s e e
  | step : ∀ x p, x ∈ s.entities → s.parent x = some p → Below s e p →
      Below s e x

/-- `x` is reachable from some root of the store. -/
def Reach (s : Store M) (x : Nat) : Prop :=
  ∃ r, isRootEnt s r ∧ Below s r x

/-- The world matrix the pass assigns along an upward chain
`P = x :: ancestors`: the root's own matrix composed downward,
`w(child) = w(parent) * local(child)`, exactly as line 39 of the source
computes it. -/
def chainProdR (s : Store M) : List Nat → Option M
  | [] => none
  | [e] => s.matrix e
  | e :: rest =>
    match chainProdR s rest with
    | some w =>
      match s.matrix e with
      | some l => some (w * l)
      | none => none
    | none => none

/-- Despawning an entity: it leaves the live list and its components are
gone. -/
def eraseEnt (s : Store M) (e : Nat) : Store M where
  entities := s.entities.erase e
  parent := fun x => if x = e then none else s.parent x
  matrix := fun x => if x = e then none else s.matrix x

/-- Removing an entity's `Parent` component (re-parenting to "root"). -/
def dropParent (s : Store M) (e : Nat) : Store M where
  entities := s.entities
  parent := fun x => if x = e then none else s.parent x
  matrix := s.matrix

/-- Re-targeting an entity's `Parent` component at `q`. -/
def setParent (s : Store M) (e q : Nat) : Store M where
  entities := s.entities
  parent := fun x => if x = e then some q else s.parent x
  matrix := s.matrix

/-! ## The hierarchy map, characterized -/

theorem buildHierarchy_foldl (s : Store M) (l : List Nat) (h0 : Nat → List Nat)
    (p : Nat) :
    (l.foldl (fun h e =>
      match s.parent e with
      | some q => fun r => if r = q then h r ++ [e] else h r
      | none => h) h0) p
      = h0 p ++ (l.filter fun e => s.parent e == some p) := by
  induction l generalizing h0 with
  | nil => simp
  | cons e l ih =>
    simp only [List.foldl_cons, List.filter_cons]
    cases hp : s.parent e with
    | none => simp [ih]
    | some q =>
      by_cases hq : p = q
      · subst hq
        simp [ih, List.append_assoc]
      · have : (some q == some p) = false := by
          simp [beq_eq_false_iff_ne]
          omega
        simp [ih, if_neg hq, this]

/-- A parent's child list is exactly the in-store-order list of live entities
whose `Parent` is that parent. -/
theorem buildHierarchy_eq_filter (s : Store M) (p : Nat) :
    buildHierarchy s p = s.entities.filter fun e => s.parent e == some p := by
  unfold buildHierarchy
  rw [buildHierarchy_foldl]
  simp

theorem mem_buildHierarchy {s : Store M} {p c : Nat} :
    c ∈ buildHierarchy s p ↔ c ∈ s.entities ∧ s.parent c = some p := by
  rw [buildHierarchy_eq_filter]
  simp [List.mem_filter]

theorem nodup_buildHierarchy (s : Store M) (hE : s.entities.Nodup) (p : Nat) :
    (buildHierarchy s p).Nodup := by
  rw [buildHierarchy_eq_filter]
  exact hE.filter _

theorem mem_rootsList {s : Store M} {r : Nat} :
    r ∈ rootsList s ↔ isRootEnt s r := by
  unfold rootsList isRootEnt
  simp [List.mem_filter, Option.isNone_iff_eq_none, and_assoc]

theorem nodup_rootsList (s : Store M) (hE : s.entities.Nodup) :
    (rootsList s).Nodup :=
  hE.filter _

/-! ## Parent chains -/

theorem rchain_head_mem {s : Store M} {x : Nat} {P : List Nat}
    (h : RChain s x P) : x ∈ s.entities := by
  cases h with
  | root _ he _ _ => exact he
  | step _ _ _ hx _ _ => exact hx

theorem rchain_ne_nil {s : Store M} {x : Nat} {P : List Nat}
    (h : RChain s x P) : P ≠ [] := by
  cases h <;> simp

theorem rchain_head {s : Store M} {x : Nat} {P : List Nat}
    (h : RChain s x P) : ∃ Q, P = x :: Q := by
  cases h with
  | root => exact ⟨[], rfl⟩
  | step _ _ P _ _ _ => exact ⟨P, rfl⟩

theorem rchain_mem_entities {s : Store M} {x : Nat} {P : List Nat}
    (h : RChain s x P) : ∀ y ∈ P, y ∈ s.entities := by
  induction h with
  | root e he _ _ => simpa using he
  | step x p P hx _ _ ih =>
    intro y hy
    rcases List.mem_cons.mp hy with rfl | hy
    · exact hx
    · exact ih y hy

/-- Chain members are pairwise distinct, and each member's parent lies
further along the chain, never back at the head: a parent chain cannot loop,
because `Parent` is a single component — each entity has one parent. -/
theorem rchain_nodup_aux {s : Store M} {x : Nat} {P : List Nat}
    (h : RChain s x P) :
    P.Nodup ∧ ∀ y ∈ P, ∀ z, s.parent y = some z → z ∈ P ∧ z ≠ x := by
  induction h with
  | root e _ hp _ =>
    refine ⟨List.nodup_singleton e, ?_⟩
    intro y hy z hz
    rcases List.mem_singleton.mp hy with rfl
    rw [hp] at hz
    exact absurd hz (by simp)
  | step x p P _ hx hP ih =>
    obtain ⟨hnd, hcl⟩ := ih
    have hpP : p ∈ P := by
      obtain ⟨Q, rfl⟩ := rchain_head hP
      exact List.mem_cons_self p Q
    have hxP : x ∉ P := by
      intro hmem
      obtain ⟨_, hne⟩ := hcl x hmem p hx
      exact hne rfl
    refine ⟨List.nodup_cons.mpr ⟨hxP, hnd⟩, ?_⟩
    intro y hy z hz
    rcases List.mem_cons.mp hy with rfl | hy
    · rw [hx] at hz
      obtain rfl : p = z := by injection hz
      exact ⟨List.mem_cons_of_mem _ hpP, fun hzx => hxP (hzx ▸ hpP)⟩
    · obtain ⟨hzP, _⟩ := hcl y hy z hz
      exact ⟨List.mem_cons_of_mem _ hzP, fun hzx => hxP (hzx ▸ hzP)⟩

theorem rchain_nodup {s : Store M} {x : Nat} {P : List Nat}
    (h : RChain s x P) : P.Nodup :=
  (rchain_nodup_aux h).1

theorem rchain_length_le {s : Store M} {x : Nat}
    {P : List Nat} (h : RChain s x P) : P.length ≤ s.entities.length :=
  List.Subperm.length_le
    (List.subperm_of_subset (rchain_nodup h) (rchain_mem_entities h))

/-- Each entity has at most one parent, so its rooted chain is unique. -/
theorem rchain_unique {s : Store M} {x : Nat} {P Q : List Nat}
    (hP : RChain s x P) (hQ : RChain s x Q) : P = Q := by
  induction hP generalizing Q with
  | root e _ hp _ =>
    cases hQ with
    | root => rfl
    | step _ p _ _ hxp _ => rw [hp] at hxp; cases hxp
  | step x p P _ hx _ ih =>
    cases hQ with
    | root _ _ hp _ => rw [hp] at hx; cases hx
    | step _ p' P' _ hxp' hP' =>
      obtain rfl : p = p' := by rw [hx] at hxp'; injection hxp'
      rw [ih hP']

theorem below_trans {s : Store M} {a b c : Nat}
    (hbc : Below s b c) (hab : Below s a b) : Below s a c := by
  induction hbc with
  | refl => exact hab
  | step x p hx hp _ ih => exact Below.step x p hx hp ih

/-- If `c` is above `x` (on `x`'s upward parent chain) and `x` has a rooted
chain, then `c` appears on that chain. -/
theorem below_mem_rchain {s : Store M} {c x : Nat} {P : List Nat}
    (hb : Below s c x) (hP : RChain s x P) : c ∈ P := by
  induction hb generalizing P with
  | refl =>
    obtain ⟨Q, rfl⟩ := rchain_head hP
    exact List.mem_cons_self _ _
  | step y p _ hyp _ ih =>
    cases hP with
    | root _ _ hnone _ => rw [hnone] at hyp; cases hyp
    | step _ p' P' _ hyp' hP' =>
      obtain rfl : p = p' := by rw [hyp] at hyp'; injection hyp'
      exact List.mem_cons_of_mem _ (ih hP')

/-- No child of an entity on a rooted chain lies above that entity: rooted
chains pass through no cycle. -/
theorem no_below_cycle {s : Store M} {e c : Nat} {P : List Nat}
    (hP : RChain s e P) (hc : s.parent c = some e) : ¬ Below s c e := by
  intro hb
  have hcP : c ∈ P := below_mem_rchain hb hP
  obtain ⟨_, hne⟩ := (rchain_nodup_aux hP).2 c hcP e hc
  exact hne rfl

/-- Decompose `Below c x`: either `x` is `c` itself, or `x` lies below one of
`c`'s children. -/
theorem below_cases {s : Store M} {c x : Nat} (h : Below s c x) :
    x = c ∨ ∃ d, d ∈ s.entities ∧ s.parent d = some c ∧ Below s d x := by
  induction h with
  | refl => exact Or.inl rfl
  | step y p hy hyp _ ih =>
    rcases ih with rfl | ⟨d, hd, hdp, hbd⟩
    · exact Or.inr ⟨y, hy, hyp, Below.refl⟩
    · exact Or.inr ⟨d, hd, hdp, Below.step y p hy hyp hbd⟩

/-- Two entities above the same `x` are comparable: the upward chain from `x`
is a single path. -/
theorem below_total {s : Store M} {a b x : Nat}
    (ha : Below s a x) (hb : Below s b x) : Below s a b ∨ Below s b a := by
  induction ha generalizing b with
  | refl => exact Or.inr hb
  | step y p hy hyp ihb ih =>
    cases hb with
    | refl => exact Or.inl (Below.step y p hy hyp ihb)
    | step _ p' _ hyp' hb' =>
      obtain rfl : p = p' := by rw [hyp] at hyp'; injection hyp'
      exact ih hb'

/-- Subtrees of distinct children of a rooted entity are disjoint. -/
theorem sibling_disjoint {s : Store M} {e c1 c2 x : Nat} {P : List Nat}
    (hP : RChain s e P) (h1 : s.parent c1 = some e) (h2 : s.parent c2 = some e)
    (hne : c1 ≠ c2) (hb1 : Below s c1 x) (hb2 : Below s c2 x) : False := by
  have key : ∀ a b : Nat, s.parent a = some e → s.parent b = some e → a ≠ b →
      Below s a b → False := by
    intro a b hae hbe hab hba
    cases hba with
    | refl => exact hab rfl
    | step _ p _ hbp hap =>
      obtain rfl : e = p := by rw [hbe] at hbp; injection hbp
      exact no_below_cycle hP hae hap
  rcases below_total hb1 hb2 with h | h
  · exact key c1 c2 h1 h2 hne h
  · exact key c2 c1 h2 h1 (Ne.symm hne) h

/-- Subtrees of distinct roots are disjoint. -/
theorem root_disjoint {s : Store M} {r1 r2 x : Nat}
    (h1 : isRootEnt s r1) (h2 : isRootEnt s r2) (hne : r1 ≠ r2)
    (hb1 : Below s r1 x) (hb2 : Below s r2 x) : False := by
  have key : ∀ a b : Nat, s.parent b = none → a ≠ b → Below s a b → False := by
    intro a b hb hab hba
    cases hba with
    | refl => exact hab rfl
    | step _ p _ hbp _ => rw [hb] at hbp; cases hbp
  rcases below_total hb1 hb2 with h | h
  · exact key r1 r2 h2.2.1 hne h
  · exact key r2 r1 h1.2.1 (Ne.symm hne) h

theorem rchain_of_below {s : Store M} {r x : Nat}
    (hr : isRootEnt s r) (hb : Below s r x) : ∃ P, RChain s x P := by
  induction hb with
  | refl => exact ⟨[r], RChain.root r hr.1 hr.2.1 hr.2.2⟩
  | step y p hy hyp _ ih =>
    obtain ⟨P, hP⟩ := ih
    exact ⟨y :: P, RChain.step y p P hy hyp hP⟩

theorem reach_of_rchain {s : Store M} {x : Nat} {P : List Nat}
    (h : RChain s x P) : Reach s x := by
  induction h with
  | root e he hp hm => exact ⟨e, ⟨he, hp, hm⟩, Below.refl⟩
  | step x p P hx hxp _ ih =>
    obtain ⟨r, hr, hb⟩ := ih
    exact ⟨r, hr, Below.step x p hx hxp hb⟩

/-- Being reachable downward from a root and having an upward parent chain
that ends at a root are the same thing. -/
theorem reach_iff_rchain {s : Store M} {x : Nat} :
    Reach s x ↔ ∃ P, RChain s x P := by
  constructor
  · rintro ⟨r, hr, hb⟩
    exact rchain_of_below hr hb
  · rintro ⟨P, hP⟩
    exact reach_of_rchain hP

theorem below_of_child {s : Store M} {c d x : Nat} (hd : d ∈ s.entities)
    (hdp : s.parent d = some c) (h : Below s d x) : Below s c x :=
  below_trans h (Below.step d c hd hdp Below.refl)

theorem rchain_extend {s : Store M} {c x : Nat} {P : List Nat}
    (hP : RChain s c P) (hb : Below s c x) : ∃ Q, RChain s x Q := by
  induction hb with
  | refl => exact ⟨P, hP⟩
  | step y p hy hyp _ ih =>
    obtain ⟨Q, hQ⟩ := ih
    exact ⟨y :: Q, RChain.step y p Q hy hyp hQ⟩

/-! ## Chain products -/

theorem chainProdR_cons_some {s : Store M} {x : Nat} {P : List Nat} {w l : M}
    (hP : P ≠ []) (hw : chainProdR s P = some w) (hl : s.matrix x = some l) :
    chainProdR s (x :: P) = some (w * l) := by
  cases P with
  | nil => exact absurd rfl hP
  | cons p rest =>
    show (match chainProdR s (p :: rest) with
      | some w =>
        match s.matrix x with
        | some l => some (w * l)
        | none => none
      | none => none) = some (w * l)
    rw [hw, hl]

theorem chainProdR_isSome {s : Store M} {x : Nat} {P : List Nat}
    (h : RChain s x P) (hm : ∀ y ∈ P, (s.matrix y).isSome = true) :
    ∃ w, chainProdR s P = some w := by
  induction h with
  | root e _ _ hme =>
    obtain ⟨w, hw⟩ := Option.isSome_iff_exists.mp hme
    exact ⟨w, hw⟩
  | step x p P hx hxp hP ih =>
    obtain ⟨w, hw⟩ := ih fun y hy => hm y (List.mem_cons_of_mem _ hy)
    obtain ⟨l, hl⟩ := Option.isSome_iff_exists.mp (hm x (List.mem_cons_self _ _))
    exact ⟨w * l, chainProdR_cons_some (rchain_ne_nil hP) hw hl⟩

/-! ## The master specification of the traversal

`SpecConc s mats region res` captures everything the claims need about one
(sub)traversal: it never runs out of fuel; it succeeds exactly when every
entity of its region (the set it will visit) holds a matrix; on success it
leaves everything outside the region untouched and writes each visited
entity's matrix to the chain product along that entity's unique rooted
parent chain. -/

def SpecConc (s : Store M) (mats : Nat → Option M) (region : Nat → Prop)
    (res : PassResult M) : Prop :=
  res ≠ PassResult.outOfFuel
  ∧ ((∀ x, region x → (s.matrix x).isSome = true) → ∃ m, res = PassResult.ok m)
  ∧ ∀ m, res = PassResult.ok m →
      (∀ x, region x → (s.matrix x).isSome = true)
      ∧ (∀ x, ¬ region x → m x = mats x)
      ∧ (∀ x, region x → ∀ Q, RChain s x Q → m x = chainProdR s Q)

/-- The specification of `update_transform_matrix` at a given stack budget:
called on an entity `e` whose rooted chain is `P` and whose just-resolved
world matrix is `pm`, with every entity strictly below `e` still holding its
original matrix, it satisfies `SpecConc` with region "strictly below `e`". -/
def VisitEntSpec (s : Store M) (fuel : Nat) : Prop :=
  ∀ (pm : M) (e : Nat) (P : List Nat) (mats : Nat → Option M),
    RChain s e P → chainProdR s P = some pm →
    s.entities.length + 2 ≤ fuel + P.length →
    (∀ x c, c ∈ s.entities → s.parent c = some e → Below s c x →
      mats x = s.matrix x) →
    SpecConc s mats
      (fun x => ∃ c, c ∈ s.entities ∧ s.parent c = some e ∧ Below s c x)
      (visitEnt (buildHierarchy s) fuel pm e mats)

theorem visitChildren_spec (s : Store M) (hE : s.entities.Nodup) (f : Nat)
    (IH : VisitEntSpec s f) :
    ∀ (l : List Nat) (pm : M) (e : Nat) (P : List Nat) (mats : Nat → Option M),
      RChain s e P → chainProdR s P = some pm →
      s.entities.length + 1 ≤ f + P.length →
      l.Nodup → (∀ c ∈ l, c ∈ s.entities ∧ s.parent c = some e) →
      (∀ x c, c ∈ l → Below s c x → mats x = s.matrix x) →
      SpecConc s mats (fun x => ∃ c ∈ l, Below s c x)
        (visitChildren (fun pm' c m' => visitEnt (buildHierarchy s) f pm' c m')
          pm l mats) := by
  intro l
  induction l with
  | nil =>
    intro pm e P mats _ _ _ _ _ _
    refine ⟨by simp [visitChildren], fun _ => ⟨mats, rfl⟩, ?_⟩
    intro m hm
    obtain rfl : mats = m := by injection hm
    exact ⟨by simp, fun x _ => rfl, by simp⟩
  | cons c rest ih =>
    intro pm e P mats hPe hprod hfuel hnd hmem hmats
    have hcE : c ∈ s.entities := (hmem c (List.mem_cons_self _ _)).1
    have hcp : s.parent c = some e := (hmem c (List.mem_cons_self _ _)).2
    have hcrest : c ∉ rest := (List.nodup_cons.mp hnd).1
    have hndrest : rest.Nodup := (List.nodup_cons.mp hnd).2
    -- `c`'s own rooted chain
    have hPc : RChain s c (c :: P) := RChain.step c e P hcE hcp hPe
    -- the subtree below `c` avoids `c` itself
    have hUnderc_ne : ∀ x, (∃ d, d ∈ s.entities ∧ s.parent d = some c ∧
        Below s d x) → Below s c x ∧ x ≠ c := by
      rintro x ⟨d, hd, hdp, hbd⟩
      refine ⟨below_of_child hd hdp hbd, ?_⟩
      rintro rfl
      exact no_below_cycle hPc hdp hbd
    -- subtrees of distinct siblings are disjoint
    have hdisj : ∀ x d, d ∈ rest → Below s d x → ¬ Below s c x := by
      intro x d hd hbd hbc
      exact sibling_disjoint hPe hcp (hmem d (List.mem_cons_of_mem _ hd)).2
        (fun h => hcrest (h ▸ hd)) hbc hbd
    -- the child's current matrix is its original one
    have hmc : mats c = s.matrix c :=
      hmats c c (List.mem_cons_self _ _) Below.refl
    cases hmatc : s.matrix c with
    | none =>
      -- the `unwrap` panics
      have hres : visitChildren
          (fun pm' c m' => visitEnt (buildHierarchy s) f pm' c m') pm
          (c :: rest) mats = PassResult.panicked := by
        simp [visitChildren, hmc, hmatc]
      refine ⟨by simp [hres], ?_, ?_⟩
      · intro hall
        have := hall c ⟨c, List.mem_cons_self _ _, Below.refl⟩
        rw [hmatc] at this
        cases this
      · intro m hm
        rw [hres] at hm
        cases hm
    | some cm =>
      have hmc' : mats c = some cm := by rw [hmc, hmatc]
      -- the written value and the store seen by the recursive call
      set mats1 : Nat → Option M :=
        fun x => if x = c then some (pm * cm) else mats x with hmats1
      have hprodc : chainProdR s (c :: P) = some (pm * cm) :=
        chainProdR_cons_some (rchain_ne_nil hPe) hprod hmatc
      have hfuelc : s.entities.length + 2 ≤ f + (c :: P).length := by
        simp only [List.length_cons]
        omega
      have hmats1_below : ∀ x d, d ∈ s.entities → s.parent d = some c →
          Below s d x → mats1 x = s.matrix x := by
        intro x d hd hdp hbd
        have hx := hUnderc_ne x ⟨d, hd, hdp, hbd⟩
        rw [hmats1]
        simp only [if_neg hx.2]
        exact hmats x c (List.mem_cons_self _ _) hx.1
      have hvisit := IH (pm * cm) c (c :: P) mats1 hPc hprodc hfuelc hmats1_below
      cases hv : visitEnt (buildHierarchy s) f (pm * cm) c mats1 with
      | outOfFuel => exact absurd hv hvisit.1
      | panicked =>
        have hres : visitChildren
            (fun pm' c m' => visitEnt (buildHierarchy s) f pm' c m') pm
            (c :: rest) mats = PassResult.panicked := by
          simp [visitChildren, hmc', hv]
        refine ⟨by simp [hres], ?_, ?_⟩
        · intro hall
          -- with every below-entity carrying a matrix the recursive call
          -- cannot have panicked
          have hsome : ∀ x, (∃ d, d ∈ s.entities ∧ s.parent d = some c ∧
              Below s d x) → (s.matrix x).isSome = true := by
            rintro x ⟨d, hd, hdp, hbd⟩
            exact hall x ⟨c, List.mem_cons_self _ _,
              below_of_child hd hdp hbd⟩
          obtain ⟨m2, hm2⟩ := hvisit.2.1 hsome
          rw [hv] at hm2
          cases hm2
        · intro m hm
          rw [hres] at hm
          cases hm
      | ok mats2 =>
        have hok := hvisit.2.2 mats2 hv
        have hres : visitChildren
            (fun pm' c m' => visitEnt (buildHierarchy s) f pm' c m') pm
            (c :: rest) mats
            = visitChildren
              (fun pm' c m' => visitEnt (buildHierarchy s) f pm' c m') pm
              rest mats2 := by
          simp [visitChildren, hmc', hv]
        -- entities below members of `rest` were untouched so far
        have hmats2 : ∀ x d, d ∈ rest → Below s d x → mats2 x = s.matrix x := by
          intro x d hd hbd
          have hnotc : ¬ Below s c x := hdisj x d hd hbd
          have h1 : mats2 x = mats1 x := by
            refine hok.2.1 x ?_
            rintro ⟨d', hd', hdp', hbd'⟩
            exact hnotc (below_of_child hd' hdp' hbd')
          have hxc : x ≠ c := by
            rintro rfl
            exact hnotc Below.refl
          rw [h1, hmats1]
          simp only [if_neg hxc]
          exact hmats x d (List.mem_cons_of_mem _ hd) hbd
        have hrest := ih pm e P mats2 hPe hprod hfuel hndrest
          (fun d hd => hmem d (List.mem_cons_of_mem _ hd)) hmats2
        rw [hres]
        refine ⟨hrest.1, ?_, ?_⟩
        · -- success
          intro hall
          refine hrest.2.1 ?_
          rintro x ⟨d, hd, hbd⟩
          exact hall x ⟨d, List.mem_cons_of_mem _ hd, hbd⟩
        · intro m hm
          have hrm := hrest.2.2 m hm
          have hregion_c : ∀ x, Below s c x →
              (s.matrix x).isSome = true := by
            intro x hbx
            rcases below_cases hbx with rfl | hunder
            · rw [hmatc]; rfl
            · exact hok.1 x hunder
          refine ⟨?_, ?_, ?_⟩
          · -- every entity of the region holds a matrix
            rintro x ⟨d, hd, hbd⟩
            rcases List.mem_cons.mp hd with rfl | hd
            · exact hregion_c x hbd
            · exact hrm.1 x ⟨d, hd, hbd⟩
          · -- frame: outside the region nothing changed
            intro x hx
            have hnotrest : ¬ ∃ d ∈ rest, Below s d x := by
              rintro ⟨d, hd, hbd⟩
              exact hx ⟨d, List.mem_cons_of_mem _ hd, hbd⟩
            have hnotc : ¬ Below s c x := by
              intro hbc
              exact hx ⟨c, List.mem_cons_self _ _, hbc⟩
            have h1 : m x = mats2 x := hrm.2.1 x hnotrest
            have h2 : mats2 x = mats1 x := by
              refine hok.2.1 x ?_
              rintro ⟨d', hd', hdp', hbd'⟩
              exact hnotc (below_of_child hd' hdp' hbd')
            have hxc : x ≠ c := by
              rintro rfl
              exact hnotc Below.refl
            rw [h1, h2, hmats1]
            simp only [if_neg hxc]
          · -- values: each visited entity carries its chain product
            rintro x ⟨d, hd, hbd⟩ Q hQ
            rcases List.mem_cons.mp hd with rfl | hd
            · -- `x` lies below `c`
              have hnotrest : ¬ ∃ d' ∈ rest, Below s d' x := by
                rintro ⟨d', hd', hbd'⟩
                exact hdisj x d' hd' hbd' hbd
              have h1 : m x = mats2 x := hrm.2.1 x hnotrest
              rcases below_cases hbd with rfl | hunder
              · -- `x = c` itself: written to `pm * cm`, never touched again
                have h2 : mats2 x = mats1 x := by
                  refine hok.2.1 x ?_
                  rintro ⟨d', hd', hdp', hbd'⟩
                  exact no_below_cycle hPc hdp' hbd'
                have hQc : Q = x :: P := rchain_unique hQ hPc
                rw [h1, h2, hmats1, hQc, hprodc]
                simp
              · rw [h1]
                exact hok.2.2 x hunder Q hQ
            · exact hrm.2.2 x ⟨d, hd, hbd⟩ Q hQ

theorem visitEnt_spec (s : Store M) (hE : s.entities.Nodup) :
    ∀ fuel : Nat, VisitEntSpec s fuel := by
  intro fuel
  induction fuel using Nat.strong_induction_on with
  | _ fuel ih =>
    intro pm e P mats hPe hprod hfuel hmats
    have hPlen : P.length ≤ s.entities.length := rchain_length_le hPe
    cases fuel with
    | zero => omega
    | succ f =>
      have hunfold : visitEnt (buildHierarchy s) (f + 1) pm e mats
          = visitChildren
              (fun pm' c m' => visitEnt (buildHierarchy s) f pm' c m')
              pm (buildHierarchy s e) mats := rfl
      have hmemh : ∀ c ∈ buildHierarchy s e,
          c ∈ s.entities ∧ s.parent c = some e := by
        intro c hc
        exact mem_buildHierarchy.mp hc
      have hvc := visitChildren_spec s hE f (ih f (Nat.lt_succ_self f))
        (buildHierarchy s e) pm e P mats hPe hprod (by omega)
        (nodup_buildHierarchy s hE e) hmemh
        (fun x c hc hb => hmats x c (hmemh c hc).1 (hmemh c hc).2 hb)
      rw [hunfold]
      have hregion : ∀ x,
          (∃ c ∈ buildHierarchy s e, Below s c x)
            ↔ (∃ c, c ∈ s.entities ∧ s.parent c = some e ∧ Below s c x) := by
        intro x
        constructor
        · rintro ⟨c, hc, hb⟩
          obtain ⟨h1, h2⟩ := mem_buildHierarchy.mp hc
          exact ⟨c, h1, h2, hb⟩
        · rintro ⟨c, h1, h2, hb⟩
          exact ⟨c, mem_buildHierarchy.mpr ⟨h1, h2⟩, hb⟩
      refine ⟨hvc.1, ?_, ?_⟩
      · intro hall
        exact hvc.2.1 fun x hx => hall x ((hregion x).mp hx)
      · intro m hm
        have h := hvc.2.2 m hm
        exact ⟨fun x hx => h.1 x ((hregion x).mpr hx),
          fun x hx => h.2.1 x (fun hc => hx ((hregion x).mp hc)),
          fun x hx => h.2.2 x ((hregion x).mpr hx)⟩

theorem runRoots_spec (s : Store M) (hE : s.entities.Nodup) (fuel : Nat)
    (hfuel : s.entities.length + 1 ≤ fuel) :
    ∀ (rl : List Nat) (mats : Nat → Option M),
      rl.Nodup → (∀ r ∈ rl, isRootEnt s r) →
      (∀ x r, r ∈ rl → Below s r x → mats x = s.matrix x) →
      SpecConc s mats (fun x => ∃ r ∈ rl, Below s r x)
        (runRoots (buildHierarchy s) fuel rl mats) := by
  intro rl
  induction rl with
  | nil =>
    intro mats _ _ _
    refine ⟨by simp [runRoots], fun _ => ⟨mats, rfl⟩, ?_⟩
    intro m hm
    obtain rfl : mats = m := by injection hm
    exact ⟨by simp, fun x _ => rfl, by simp⟩
  | cons r rs ih =>
    intro mats hnd hroot hmats
    have hr := hroot r (List.mem_cons_self _ _)
    have hrrs : r ∉ rs := (List.nodup_cons.mp hnd).1
    have hndrs : rs.Nodup := (List.nodup_cons.mp hnd).2
    obtain ⟨w, hw⟩ := Option.isSome_iff_exists.mp hr.2.2
    have hmr : mats r = some w := by
      rw [hmats r r (List.mem_cons_self _ _) Below.refl, hw]
    have hPr : RChain s r [r] := RChain.root r hr.1 hr.2.1 hr.2.2
    -- the root's own matrix is never written
    have hnotin_r : ∀ d, s.parent d = some r → ¬ Below s d r := by
      intro d hdp hb
      exact no_below_cycle hPr hdp hb
    -- subtrees of the processed root and of the remaining roots are disjoint
    have hdisj : ∀ x r', r' ∈ rs → Below s r' x → ¬ Below s r x := by
      intro x r' hr' hb' hb
      exact root_disjoint hr (hroot r' (List.mem_cons_of_mem _ hr'))
        (fun h => hrrs (h ▸ hr')) hb hb'
    have hmats_below : ∀ x c, c ∈ s.entities → s.parent c = some r →
        Below s c x → mats x = s.matrix x := by
      intro x c hc hcp hb
      exact hmats x r (List.mem_cons_self _ _) (below_of_child hc hcp hb)
    have hvisit := visitEnt_spec s hE fuel w r [r] mats hPr hw
      (by simp; omega) hmats_below
    cases hv : visitEnt (buildHierarchy s) fuel w r mats with
    | outOfFuel => exact absurd hv hvisit.1
    | panicked =>
      have hres : runRoots (buildHierarchy s) fuel (r :: rs) mats
          = PassResult.panicked := by
        simp [runRoots, hmr, hv]
      refine ⟨by simp [hres], ?_, ?_⟩
      · intro hall
        have hsome : ∀ x, (∃ c, c ∈ s.entities ∧ s.parent c = some r ∧
            Below s c x) → (s.matrix x).isSome = true := by
          rintro x ⟨c, hc, hcp, hb⟩
          exact hall x ⟨r, List.mem_cons_self _ _, below_of_child hc hcp hb⟩
        obtain ⟨m2, hm2⟩ := hvisit.2.1 hsome
        rw [hv] at hm2
        cases hm2
      · intro m hm
        rw [hres] at hm
        cases hm
    | ok mats2 =>
      have hok := hvisit.2.2 mats2 hv
      have hres : runRoots (buildHierarchy s) fuel (r :: rs) mats
          = runRoots (buildHierarchy s) fuel rs mats2 := by
        simp [runRoots, hmr, hv]
      have hmats2 : ∀ x r', r' ∈ rs → Below s r' x →
          mats2 x = s.matrix x := by
        intro x r' hr' hb'
        have hnotr : ¬ Below s r x := hdisj x r' hr' hb'
        have h1 : mats2 x = mats x := by
          refine hok.2.1 x ?_
          rintro ⟨c, hc, hcp, hb⟩
          exact hnotr (below_of_child hc hcp hb)
        rw [h1]
        exact hmats x r' (List.mem_cons_of_mem _ hr') hb'
      have hrest := ih mats2 hndrs
        (fun r' hr' => hroot r' (List.mem_cons_of_mem _ hr')) hmats2
      rw [hres]
      refine ⟨hrest.1, ?_, ?_⟩
      · intro hall
        refine hrest.2.1 ?_
        rintro x ⟨r', hr', hb'⟩
        exact hall x ⟨r', List.mem_cons_of_mem _ hr', hb'⟩
      · intro m hm
        have hrm := hrest.2.2 m hm
        have hregion_r : ∀ x, Below s r x → (s.matrix x).isSome = true := by
          intro x hbx
          rcases below_cases hbx with rfl | ⟨c, hc, hcp, hb⟩
          · exact hr.2.2
          · exact hok.1 x ⟨c, hc, hcp, hb⟩
        refine ⟨?_, ?_, ?_⟩
        · rintro x ⟨r', hr', hb'⟩
          rcases List.mem_cons.mp hr' with rfl | hr'
          · exact hregion_r x hb'
          · exact hrm.1 x ⟨r', hr', hb'⟩
        · intro x hx
          have hnotrs : ¬ ∃ r' ∈ rs, Below s r' x := by
            rintro ⟨r', hr', hb'⟩
            exact hx ⟨r', List.mem_cons_of_mem _ hr', hb'⟩
          have hnotr : ¬ Below s r x := fun hb =>
            hx ⟨r, List.mem_cons_self _ _, hb⟩
          have h1 : m x = mats2 x := hrm.2.1 x hnotrs
          have h2 : mats2 x = mats x := by
            refine hok.2.1 x ?_
            rintro ⟨c, hc, hcp, hb⟩
            exact hnotr (below_of_child hc hcp hb)
          rw [h1, h2]
        · rintro x ⟨r', hr', hb'⟩ Q hQ
          rcases List.mem_cons.mp hr' with rfl | hr'
          · -- `x` lies in the subtree of the root just processed
            have hnotrs : ¬ ∃ r'' ∈ rs, Below s r'' x := by
              rintro ⟨r'', hr'', hb''⟩
              exact hdisj x r'' hr'' hb'' hb'
            have h1 : m x = mats2 x := hrm.2.1 x hnotrs
            rcases below_cases hb' with rfl | ⟨c, hc, hcp, hb⟩
            · -- `x` is the root itself: never written, value is its matrix
              have h2 : mats2 x = mats x := by
                refine hok.2.1 x ?_
                rintro ⟨c, hc, hcp, hb⟩
                exact hnotin_r c hcp hb
              have hQr : Q = [x] := rchain_unique hQ hPr
              rw [h1, h2, hmr, hQr]
              exact hw.symm
            · rw [h1]
              exact hok.2.2 x ⟨c, hc, hcp, hb⟩ Q hQ
          · exact hrm.2.2 x ⟨r', hr', hb'⟩ Q hQ

/-- The full characterization of one invocation of the pass, at any
sufficient fuel: it never exhausts fuel, succeeds exactly when every
root-reachable entity holds a matrix, and on success leaves unreachable
entities untouched and writes every reachable entity's matrix to the chain
product along its unique rooted parent chain. -/
theorem runWithFuel_spec (s : Store M) (hE : s.entities.Nodup) (fuel : Nat)
    (hfuel : s.entities.length + 1 ≤ fuel) :
    SpecConc s s.matrix (fun x => Reach s x) (runWithFuel s fuel) := by
  have h := runRoots_spec s hE fuel hfuel (rootsList s) s.matrix
    (nodup_rootsList s hE) (fun r hr => mem_rootsList.mp hr)
    (fun x r _ _ => rfl)
  have hregion : ∀ x, (∃ r ∈ rootsList s, Below s r x) ↔ Reach s x := by
    intro x
    constructor
    · rintro ⟨r, hr, hb⟩
      exact ⟨r, mem_rootsList.mp hr, hb⟩
    · rintro ⟨r, hr, hb⟩
      exact ⟨r, mem_rootsList.mpr hr, hb⟩
  refine ⟨h.1, ?_, ?_⟩
  · intro hall
    exact h.2.1 fun x hx => hall x ((hregion x).mp hx)
  · intro m hm
    have hc := h.2.2 m hm
    exact ⟨fun x hx => hc.1 x ((hregion x).mpr hx),
      fun x hx => hc.2.1 x (fun hr => hx ((hregion x).mp hr)),
      fun x hx => hc.2.2 x ((hregion x).mpr hx)⟩

theorem pass_spec (s : Store M) (hE : s.entities.Nodup) :
    SpecConc s s.matrix (fun x => Reach s x)
      (update_parent_transform_matrix_system s) :=
  runWithFuel_spec s hE (s.entities.length + 1) le_rfl

/-! ## Convenience corollaries about one pass -/

theorem isOk_iff_exists {r : PassResult M} :
    r.isOk = true ↔ ∃ m, r = PassResult.ok m := by
  cases r <;> simp [PassResult.isOk]

theorem pass_ne_outOfFuel (s : Store M) (hE : s.entities.Nodup) :
    update_parent_transform_matrix_system s ≠ PassResult.outOfFuel :=
  (pass_spec s hE).1

theorem pass_isOk_iff (s : Store M) (hE : s.entities.Nodup) :
    (update_parent_transform_matrix_system s).isOk = true
      ↔ ∀ x, Reach s x → (s.matrix x).isSome = true := by
  constructor
  · intro h
    obtain ⟨m, hm⟩ := isOk_iff_exists.mp h
    exact ((pass_spec s hE).2.2 m hm).1
  · intro h
    obtain ⟨m, hm⟩ := (pass_spec s hE).2.1 h
    rw [hm]
    rfl

theorem pass_panicked_iff (s : Store M) (hE : s.entities.Nodup) :
    update_parent_transform_matrix_system s = PassResult.panicked
      ↔ ¬ ∀ x, Reach s x → (s.matrix x).isSome = true := by
  constructor
  · intro h hall
    obtain ⟨m, hm⟩ := (pass_spec s hE).2.1 hall
    rw [h] at hm
    cases hm
  · intro h
    cases hr : update_parent_transform_matrix_system s with
    | ok m => exact absurd (((pass_spec s hE).2.2 m hr).1) h
    | panicked => rfl
    | outOfFuel => exact absurd hr (pass_ne_outOfFuel s hE)

theorem pass_frame (s : Store M) (hE : s.entities.Nodup) {m : Nat → Option M}
    (hm : update_parent_transform_matrix_system s = PassResult.ok m) :
    ∀ x, ¬ Reach s x → m x = s.matrix x :=
  ((pass_spec s hE).2.2 m hm).2.1

theorem pass_value (s : Store M) (hE : s.entities.Nodup) {m : Nat → Option M}
    (hm : update_parent_transform_matrix_system s = PassResult.ok m) :
    ∀ x Q, RChain s x Q → m x = chainProdR s Q := by
  intro x Q hQ
  exact ((pass_spec s hE).2.2 m hm).2.2 x (reach_of_rchain hQ) Q hQ

theorem pass_reach_isSome (s : Store M) (hE : s.entities.Nodup)
    {m : Nat → Option M}
    (hm : update_parent_transform_matrix_system s = PassResult.ok m) :
    ∀ x, Reach s x → (s.matrix x).isSome = true :=
  ((pass_spec s hE).2.2 m hm).1

theorem rchain_mem_reach {s : Store M} {x : Nat} {Q : List Nat}
    (h : RChain s x Q) : ∀ y ∈ Q, Reach s y := by
  induction h with
  | root e he hp hme =>
    intro y hy
    rcases List.mem_singleton.mp hy with rfl
    exact ⟨y, ⟨he, hp, hme⟩, Below.refl⟩
  | step x p P hx hxp hP ih =>
    intro y hy
    rcases List.mem_cons.mp hy with rfl | hy
    · exact reach_of_rchain (RChain.step y p P hx hxp hP)
    · exact ih y hy

/-- A successful pass preserves which entities hold a matrix: it only
overwrites components that exist (through `get_mut(..).unwrap()`), never
inserts or removes them. -/
theorem pass_preserves_isSome (s : Store M) (hE : s.entities.Nodup)
    {m : Nat → Option M}
    (hm : update_parent_transform_matrix_system s = PassResult.ok m) :
    ∀ x, (m x).isSome = (s.matrix x).isSome := by
  intro x
  by_cases hx : Reach s x
  · obtain ⟨Q, hQ⟩ := reach_iff_rchain.mp hx
    have hall : ∀ y ∈ Q, (s.matrix y).isSome = true := fun y hy =>
      pass_reach_isSome s hE hm y (rchain_mem_reach hQ y hy)
    obtain ⟨w, hw⟩ := chainProdR_isSome hQ hall
    rw [pass_value s hE hm x Q hQ, hw,
      pass_reach_isSome s hE hm x hx]
    rfl
  · rw [pass_frame s hE hm x hx]

theorem passMatrixAt_eq {s : Store M} {m : Nat → Option M}
    (hm : update_parent_transform_matrix_system s = PassResult.ok m) (x : Nat) :
    passMatrixAt s x = m x := by
  simp [passMatrixAt, hm]

theorem passMatrixAt_of_not_ok {s : Store M}
    (h : (update_parent_transform_matrix_system s).isOk = false) (x : Nat) :
    passMatrixAt s x = none := by
  unfold passMatrixAt
  cases hr : update_parent_transform_matrix_system s with
  | ok m => rw [hr] at h; cases h
  | panicked => rfl
  | outOfFuel => rfl

theorem passStore_eq {s : Store M} {m : Nat → Option M}
    (hm : update_parent_transform_matrix_system s = PassResult.ok m) :
    passStore s = { s with matrix := m } := by
  simp [passStore, hm]

theorem passStore_entities (s : Store M) :
    (passStore s).entities = s.entities := by
  unfold passStore
  cases update_parent_transform_matrix_system s <;> rfl

theorem passStore_parent (s : Store M) :
    (passStore s).parent = s.parent := by
  unfold passStore
  cases update_parent_transform_matrix_system s <;> rfl

theorem passStore_matrix_eq {s : Store M} {m : Nat → Option M}
    (hm : update_parent_transform_matrix_system s = PassResult.ok m) (x : Nat) :
    (passStore s).matrix x = passMatrixAt s x := by
  rw [passStore_eq hm, passMatrixAt_eq hm]

/-! ## Transfer lemmas between stores that agree on the hierarchy -/

theorem rchain_map {s t : Store M}
    (hmem : ∀ x, x ∈ s.entities → x ∈ t.entities)
    (hpar : ∀ x, t.parent x = s.parent x)
    (hsome : ∀ x, (t.matrix x).isSome = (s.matrix x).isSome) :
    ∀ {x : Nat} {Q : List Nat}, RChain s x Q → RChain t x Q := by
  intro x Q h
  induction h with
  | root e he hp hm =>
    exact RChain.root e (hmem e he) (by rw [hpar]; exact hp)
      (by rw [hsome]; exact hm)
  | step x p P hx hxp _ ih =>
    exact RChain.step x p P (hmem x hx) (by rw [hpar]; exact hxp) ih

theorem rchain_congr {s t : Store M}
    (hmem : ∀ x, x ∈ t.entities ↔ x ∈ s.entities)
    (hpar : ∀ x, t.parent x = s.parent x)
    (hsome : ∀ x, (t.matrix x).isSome = (s.matrix x).isSome) :
    ∀ {x : Nat} {Q : List Nat}, RChain t x Q ↔ RChain s x Q := by
  intro x Q
  constructor
  · exact rchain_map (fun x hx => (hmem x).mp hx)
      (fun x => (hpar x).symm) (fun x => (hsome x).symm)
  · exact rchain_map (fun x hx => (hmem x).mpr hx) hpar hsome

theorem reach_congr {s t : Store M}
    (hmem : ∀ x, x ∈ t.entities ↔ x ∈ s.entities)
    (hpar : ∀ x, t.parent x = s.parent x)
    (hsome : ∀ x, (t.matrix x).isSome = (s.matrix x).isSome) :
    ∀ x, Reach t x ↔ Reach s x := by
  intro x
  rw [reach_iff_rchain, reach_iff_rchain]
  constructor
  · rintro ⟨Q, hQ⟩
    exact ⟨Q, (rchain_congr hmem hpar hsome).mp hQ⟩
  · rintro ⟨Q, hQ⟩
    exact ⟨Q, (rchain_congr hmem hpar hsome).mpr hQ⟩

theorem chainProdR_congr {s t : Store M}
    (hmat : ∀ x, t.matrix x = s.matrix x) :
    ∀ P : List Nat, chainProdR t P = chainProdR s P := by
  intro P
  induction P with
  | nil => rfl
  | cons x P ih =>
    cases P with
    | nil => exact hmat x
    | cons y Q =>
      show (match chainProdR t (y :: Q) with
        | some w =>
          match t.matrix x with
          | some l => some (w * l)
          | none => none
        | none => none)
        = (match chainProdR s (y :: Q) with
          | some w =>
            match s.matrix x with
            | some l => some (w * l)
            | none => none
          | none => none)
      rw [ih, hmat]

/-- Inverting a rooted chain at an entity that holds a parent. -/
theorem rchain_parent_inv {s : Store M} {x p : Nat} {Q : List Nat}
    (hQ : RChain s x Q) (hp : s.parent x = some p) :
    ∃ Q', Q = x :: Q' ∧ RChain s p Q' := by
  cases hQ with
  | root _ _ hnone _ => rw [hnone] at hp; cases hp
  | step _ p' P _ hxp' hP =>
    obtain rfl : p = p' := by
      rw [hp] at hxp'
      injection hxp'
    exact ⟨P, rfl, hP⟩

/-- A rooted chain cannot exist for a member of a 2-cycle: a chain's members
have their parents further along the chain, never back at its head. -/
theorem no_rchain_of_two_cycle {s : Store M} {a b : Nat} {P : List Nat}
    (hpa : s.parent a = some b) (hpb : s.parent b = some a)
    (h : RChain s a P) : False := by
  obtain ⟨Q, rfl⟩ := rchain_head h
  have haP : a ∈ a :: Q := List.mem_cons_self _ _
  have hb := (rchain_nodup_aux h).2 a haP b hpa
  have ha := (rchain_nodup_aux h).2 b hb.1 a hpb
  exact ha.2 rfl

/-! ## Concrete stores (matrices modelled by `Nat` under multiplication) -/

/-- A root `0` (matrix 2) with child `1` (matrix 3). -/
def chainStore : Store Nat where
  entities := [0, 1]
  parent := fun x => if x = 1 then some 0 else none
  matrix := fun x => if x = 0 then some 2 else if x = 1 then some 3 else none

/-- A root `0` (matrix 2), child `1` (matrix 3), grandchild `2` (matrix 5). -/
def chainStore3 : Store Nat where
  entities := [0, 1, 2]
  parent := fun x => if x = 1 then some 0 else if x = 2 then some 1 else none
  matrix := fun x =>
    if x = 0 then some 2 else if x = 1 then some 3 else
    if x = 2 then some 5 else none

/-- The 2-entity cycle: `0`'s parent is `1` and `1`'s parent is `0`. -/
def cycStore : Store Nat where
  entities := [0, 1]
  parent := fun x => if x = 0 then some 1 else if x = 1 then some 0 else none
  matrix := fun x => if x = 0 then some 5 else if x = 1 then some 7 else none

/-- Entity `0`'s parent `99` is not present in the store; `1` is a root. -/
def dangStore : Store Nat where
  entities := [0, 1]
  parent := fun x => if x = 0 then some 99 else none
  matrix := fun x => if x = 0 then some 3 else if x = 1 then some 5 else none

/-- Root `0` with matrix, child `1` holding a `Parent` but no matrix. -/
def missStore : Store Nat where
  entities := [0, 1]
  parent := fun x => if x = 1 then some 0 else none
  matrix := fun x => if x = 0 then some 5 else none

/-- Root `0` (matrix 2) with two children `1` (matrix 3) and `2` (matrix 5),
and the same store with its iteration order — hence sibling order —
permuted. -/
def forkStore : Store Nat where
  entities := [0, 1, 2]
  parent := fun x => if x = 1 then some 0 else if x = 2 then some 0 else none
  matrix := fun x =>
    if x = 0 then some 2 else if x = 1 then some 3 else
    if x = 2 then some 5 else none

/-- `forkStore` with the sibling order of `1` and `2` swapped. -/
def forkStoreSwapped : Store Nat where
  entities := [0, 2, 1]
  parent := fun x => if x = 1 then some 0 else if x = 2 then some 0 else none
  matrix := fun x =>
    if x = 0 then some 2 else if x = 1 then some 3 else
    if x = 2 then some 5 else none

/-- Root `0` with matrix, and entity `1` with no components at all. -/
def junkStore : Store Nat where
  entities := [0, 1]
  parent := fun _ => none
  matrix := fun x => if x = 0 then some 5 else none

/-! ## The claims -/

/-- C1: after one invocation of the resolution pass on a store whose Parent
relations form a finite forest (witnessed by a depth function decreasing
upward) in which every entity holding a Parent also holds a TransformMatrix,
the pass completes, every entity reachable from a root with a parent `p` has
World Matrix = (p's resolved World Matrix) * (its own Local Matrix), in that
order, and every root's World Matrix equals its Local Matrix exactly. -/
theorem C1_resolution_correctness (s : Store M) (depth : Nat → Nat)
    (hE : s.entities.Nodup)
    (hforest : ∀ c ∈ s.entities, ∀ p ∈ s.entities,
      s.parent c = some p → depth p < depth c)
    (hmat : ∀ e ∈ s.entities, s.parent e ≠ none → (s.matrix e).isSome = true) :
    (update_parent_transform_matrix_system s).isOk = true
    ∧ (∀ r, isRootEnt s r → passMatrixAt s r = s.matrix r)
    ∧ (∀ x p, Reach s x → s.parent x = some p →
        ∃ wp lx, passMatrixAt s p = some wp ∧ s.matrix x = some lx
          ∧ passMatrixAt s x = some (wp * lx)) := by
  have hall : ∀ x, Reach s x → (s.matrix x).isSome = true := by
    intro x hx
    obtain ⟨Q, hQ⟩ := reach_iff_rchain.mp hx
    cases hQ with
    | root _ _ _ hme => exact hme
    | step x p P hx' hxp _ =>
      exact hmat x hx' (by rw [hxp]; simp)
  have hok : (update_parent_transform_matrix_system s).isOk = true :=
    (pass_isOk_iff s hE).mpr hall
  obtain ⟨m, hm⟩ := isOk_iff_exists.mp hok
  refine ⟨hok, ?_, ?_⟩
  · intro r hr
    have hQ : RChain s r [r] := RChain.root r hr.1 hr.2.1 hr.2.2
    rw [passMatrixAt_eq hm, pass_value s hE hm r [r] hQ]
    rfl
  · intro x p hx hp
    obtain ⟨Q, hQ⟩ := reach_iff_rchain.mp hx
    obtain ⟨Q', rfl, hQ'⟩ := rchain_parent_inv hQ hp
    have hsome : ∀ y ∈ Q', (s.matrix y).isSome = true := fun y hy =>
      hall y (rchain_mem_reach hQ' y hy)
    obtain ⟨wp, hwp⟩ := chainProdR_isSome hQ' hsome
    obtain ⟨lx, hlx⟩ := Option.isSome_iff_exists.mp (hall x hx)
    refine ⟨wp, lx, ?_, hlx, ?_⟩
    · rw [passMatrixAt_eq hm, pass_value s hE hm p Q' hQ', hwp]
    · rw [passMatrixAt_eq hm, pass_value s hE hm x (x :: Q') hQ,
        chainProdR_cons_some (rchain_ne_nil hQ') hwp hlx]

/-- C1 witness: the three-entity chain with matrices 2, 3, 5 satisfies the
hypotheses, and the pass resolves it. -/
theorem C1_witness :
    (update_parent_transform_matrix_system chainStore3).isOk = true
    ∧ (∀ r, isRootEnt chainStore3 r →
        passMatrixAt chainStore3 r = chainStore3.matrix r)
    ∧ (∀ x p, Reach chainStore3 x → chainStore3.parent x = some p →
        ∃ wp lx, passMatrixAt chainStore3 p = some wp
          ∧ chainStore3.matrix x = some lx
          ∧ passMatrixAt chainStore3 x = some (wp * lx)) :=
  C1_resolution_correctness chainStore3 (fun x => x) (by decide) (by decide)
    (by decide)

/-- C2 counterexample: the pass overwrites the one `TransformMatrix`
component in place, so running it twice without the upstream local-matrix
rewrite composes the root's matrix in twice: child `1` holds 6 = 2·3 after
the first pass but 12 = 2·6 after the second. -/
theorem C2_counterexample :
    (update_parent_transform_matrix_system chainStore).isOk = true
    ∧ (update_parent_transform_matrix_system (passStore chainStore)).isOk = true
    ∧ passMatrixAt chainStore 1 = some 6
    ∧ passMatrixAt (passStore chainStore) 1 = some 12
    ∧ ¬ passMatrixAt (passStore chainStore) 1 = passMatrixAt chainStore 1 := by
  decide

/-- C2 (amended): invoking the pass twice in succession is *not*
idempotent in general, because World Matrices are written into the very
component that held the Local Matrices.  What holds: the second invocation
also completes; every root's matrix is bit-identical after the second
invocation; and every reachable non-root entity's matrix after the second
invocation is (its parent's second-pass matrix) * (its own *first-pass*
matrix) — the parent's contribution is applied a second time.  Bit-identical
results for non-roots would require the upstream Local-Matrix rewrite to run
between the invocations. -/
theorem C2_amended_second_pass (s : Store M) (hE : s.entities.Nodup)
    (h1 : (update_parent_transform_matrix_system s).isOk = true) :
    (update_parent_transform_matrix_system (passStore s)).isOk = true
    ∧ (∀ r, isRootEnt s r →
        passMatrixAt (passStore s) r = passMatrixAt s r)
    ∧ (∀ x p w, Reach s x → s.parent x = some p → passMatrixAt s x = some w →
        ∃ wp, passMatrixAt (passStore s) p = some wp
          ∧ passMatrixAt (passStore s) x = some (wp * w)) := by
  obtain ⟨m, hm⟩ := isOk_iff_exists.mp h1
  have hps : passStore s = { s with matrix := m } := passStore_eq hm
  have hEt : (passStore s).entities.Nodup := by
    rw [passStore_entities]; exact hE
  have hsome : ∀ x, ((passStore s).matrix x).isSome = (s.matrix x).isSome := by
    intro x
    rw [hps]
    exact pass_preserves_isSome s hE hm x
  have hmem : ∀ x, x ∈ (passStore s).entities ↔ x ∈ s.entities := by
    intro x
    rw [passStore_entities]
  have hpar : ∀ x, (passStore s).parent x = s.parent x := by
    intro x
    rw [passStore_parent]
  have hreach : ∀ x, Reach (passStore s) x ↔ Reach s x :=
    reach_congr hmem hpar hsome
  have h2 : (update_parent_transform_matrix_system (passStore s)).isOk = true := by
    rw [pass_isOk_iff _ hEt]
    intro x hx
    rw [hsome]
    exact pass_reach_isSome s hE hm x ((hreach x).mp hx)
  obtain ⟨m2, hm2⟩ := isOk_iff_exists.mp h2
  refine ⟨h2, ?_, ?_⟩
  · intro r hr
    have hrt : isRootEnt (passStore s) r :=
      ⟨(hmem r).mpr hr.1, by rw [hpar]; exact hr.2.1, by rw [hsome r]; exact hr.2.2⟩
    have hQ : RChain (passStore s) r [r] :=
      RChain.root r hrt.1 hrt.2.1 hrt.2.2
    rw [passMatrixAt_eq hm2, pass_value _ hEt hm2 r [r] hQ]
    show (passStore s).matrix r = passMatrixAt s r
    exact passStore_matrix_eq hm r
  · intro x p w hx hp hw
    have hxt : Reach (passStore s) x := (hreach x).mpr hx
    obtain ⟨Q, hQ⟩ := reach_iff_rchain.mp hxt
    obtain ⟨Q', rfl, hQ'⟩ := rchain_parent_inv hQ (by rw [hpar]; exact hp)
    have hsomeQ : ∀ y ∈ Q', ((passStore s).matrix y).isSome = true := fun y hy =>
      pass_reach_isSome _ hEt hm2 y (rchain_mem_reach hQ' y hy)
    obtain ⟨wp, hwp⟩ := chainProdR_isSome hQ' hsomeQ
    have hmx : (passStore s).matrix x = some w := by
      rw [passStore_matrix_eq hm x]
      exact hw
    refine ⟨wp, ?_, ?_⟩
    · rw [passMatrixAt_eq hm2, pass_value _ hEt hm2 p Q' hQ', hwp]
    · rw [passMatrixAt_eq hm2, pass_value _ hEt hm2 x (x :: Q') hQ,
        chainProdR_cons_some (rchain_ne_nil hQ') hwp hmx]

/-- C2 amended witness: on the two-entity chain both passes complete, and
the amended description holds. -/
theorem C2_amended_witness :
    (update_parent_transform_matrix_system (passStore chainStore)).isOk = true
    ∧ (∀ r, isRootEnt chainStore r →
        passMatrixAt (passStore chainStore) r = passMatrixAt chainStore r)
    ∧ (∀ x p w, Reach chainStore x → chainStore.parent x = some p →
        passMatrixAt chainStore x = some w →
        ∃ wp, passMatrixAt (passStore chainStore) p = some wp
          ∧ passMatrixAt (passStore chainStore) x = some (wp * w)) :=
  C2_amended_second_pass chainStore (by decide) (by decide)

/-- C3 counterexample: on the 2-entity cycle the pass completes successfully
and silently — both matrices are left untouched — instead of triggering the
fatal failure mode the claim asserts. -/
theorem C3_counterexample :
    (update_parent_transform_matrix_system cycStore).isOk = true
    ∧ passMatrixAt cycStore 0 = some 5
    ∧ passMatrixAt cycStore 1 = some 7 := by
  decide

/-- C3 (amended): a 2-entity cycle does not trigger unbounded recursion —
recursion starts only at roots, and since each entity has a single Parent no
cycle member is reachable from any root.  The pass terminates (never runs
out of fuel), neither cycle member is reachable, and when the pass completes
their matrices are bit-identical to their values before the pass: the cycle
is silently skipped. -/
theorem C3_amended_cycle_skipped (s : Store M) (hE : s.entities.Nodup)
    (a b : Nat) (hpa : s.parent a = some b) (hpb : s.parent b = some a) :
    update_parent_transform_matrix_system s ≠ PassResult.outOfFuel
    ∧ ¬ Reach s a ∧ ¬ Reach s b
    ∧ ((update_parent_transform_matrix_system s).isOk = true →
        passMatrixAt s a = s.matrix a ∧ passMatrixAt s b = s.matrix b) := by
  have hna : ¬ Reach s a := by
    intro h
    obtain ⟨Q, hQ⟩ := reach_iff_rchain.mp h
    exact no_rchain_of_two_cycle hpa hpb hQ
  have hnb : ¬ Reach s b := by
    intro h
    obtain ⟨Q, hQ⟩ := reach_iff_rchain.mp h
    exact no_rchain_of_two_cycle hpb hpa hQ
  refine ⟨pass_ne_outOfFuel s hE, hna, hnb, ?_⟩
  intro hok
  obtain ⟨m, hm⟩ := isOk_iff_exists.mp hok
  rw [passMatrixAt_eq hm, passMatrixAt_eq hm]
  exact ⟨pass_frame s hE hm a hna, pass_frame s hE hm b hnb⟩

/-- C3 amended witness: the concrete 2-entity cycle. -/
theorem C3_amended_witness :
    update_parent_transform_matrix_system cycStore ≠ PassResult.outOfFuel
    ∧ ¬ Reach cycStore 0 ∧ ¬ Reach cycStore 1
    ∧ ((update_parent_transform_matrix_system cycStore).isOk = true →
        passMatrixAt cycStore 0 = cycStore.matrix 0
          ∧ passMatrixAt cycStore 1 = cycStore.matrix 1) :=
  C3_amended_cycle_skipped cycStore (by decide) 0 1 (by decide) (by decide)

/-- C4 counterexample: the pass does mutate the component holding the Local
Matrix — there is only one `TransformMatrix` component per entity, and line
39 overwrites it in place.  Child `1` held 3 before the pass and 6 after. -/
theorem C4_counterexample :
    (update_parent_transform_matrix_system chainStore).isOk = true
    ∧ chainStore.matrix 1 = some 3
    ∧ passMatrixAt chainStore 1 = some 6
    ∧ ¬ passMatrixAt chainStore 1 = chainStore.matrix 1 := by
  decide

/-- C4 (amended): the pass stores each World Matrix into the same
`TransformMatrix` component that held the Local Matrix, so the Local Matrix
value of a non-root entity reachable from a root is overwritten.  What holds:
the pass never touches the entity list or any `Parent` component, and the
matrices of roots and of entities not reachable from any root are
bit-identical before and after. -/
theorem C4_amended_in_place (s : Store M) (hE : s.entities.Nodup) :
    (passStore s).entities = s.entities
    ∧ (passStore s).parent = s.parent
    ∧ ((update_parent_transform_matrix_system s).isOk = true →
        (∀ x, ¬ Reach s x → passMatrixAt s x = s.matrix x)
        ∧ (∀ r, isRootEnt s r → passMatrixAt s r = s.matrix r)) := by
  refine ⟨passStore_entities s, passStore_parent s, ?_⟩
  intro hok
  obtain ⟨m, hm⟩ := isOk_iff_exists.mp hok
  constructor
  · intro x hx
    rw [passMatrixAt_eq hm]
    exact pass_frame s hE hm x hx
  · intro r hr
    have hQ : RChain s r [r] := RChain.root r hr.1 hr.2.1 hr.2.2
    rw [passMatrixAt_eq hm, pass_value s hE hm r [r] hQ]
    rfl

/-- C4 amended witness: the two-entity chain. -/
theorem C4_amended_witness :
    (passStore chainStore).entities = chainStore.entities
    ∧ (passStore chainStore).parent = chainStore.parent
    ∧ ((update_parent_transform_matrix_system chainStore).isOk = true →
        (∀ x, ¬ Reach chainStore x →
          passMatrixAt chainStore x = chainStore.matrix x)
        ∧ (∀ r, isRootEnt chainStore r →
          passMatrixAt chainStore r = chainStore.matrix r)) :=
  C4_amended_in_place chainStore (by decide)

/-- C5 counterexample: a Parent naming an absent entity is not fatal — the
missing parent is never dereferenced (it is only a key of the hierarchy map
and is neither a root nor anyone's child), so the pass completes and leaves
the orphaned child's matrix untouched. -/
theorem C5_counterexample :
    (update_parent_transform_matrix_system dangStore).isOk = true
    ∧ passMatrixAt dangStore 0 = some 3
    ∧ passMatrixAt dangStore 1 = some 5 := by
  decide

/-- C5 (amended): a dangling parent reference is silently ignored, not
fatal: the pass terminates, the child naming the absent parent is not
reachable from any root, and when the pass completes that child's matrix is
bit-identical to its value before the pass. -/
theorem C5_amended_dangling_skipped (s : Store M) (hE : s.entities.Nodup)
    (c d : Nat) (hc : s.parent c = some d) (hd : d ∉ s.entities) :
    update_parent_transform_matrix_system s ≠ PassResult.outOfFuel
    ∧ ¬ Reach s c
    ∧ ((update_parent_transform_matrix_system s).isOk = true →
        passMatrixAt s c = s.matrix c) := by
  have hnc : ¬ Reach s c := by
    intro h
    obtain ⟨Q, hQ⟩ := reach_iff_rchain.mp h
    obtain ⟨Q', rfl, hQ'⟩ := rchain_parent_inv hQ hc
    exact hd (rchain_head_mem hQ')
  refine ⟨pass_ne_outOfFuel s hE, hnc, ?_⟩
  intro hok
  obtain ⟨m, hm⟩ := isOk_iff_exists.mp hok
  rw [passMatrixAt_eq hm]
  exact pass_frame s hE hm c hnc

/-- C5 amended witness: the concrete dangling-parent store. -/
theorem C5_amended_witness :
    update_parent_transform_matrix_system dangStore ≠ PassResult.outOfFuel
    ∧ ¬ Reach dangStore 0
    ∧ ((update_parent_transform_matrix_system dangStore).isOk = true →
        passMatrixAt dangStore 0 = dangStore.matrix 0) :=
  C5_amended_dangling_skipped dangStore (by decide) 0 99 (by decide) (by decide)

/-- C6: if an entity holds a Parent but no TransformMatrix and is reachable
from a root through the hierarchy, the pass is fatal: the
`get_mut::<TransformMatrix>(..).unwrap()` on line 38 panics, and the pass
ends in the panicked state instead of completing. -/
theorem C6_missing_matrix_fatal (s : Store M) (hE : s.entities.Nodup)
    (x p : Nat) (hp : s.parent x = some p) (hxm : s.matrix x = none)
    (hr : Reach s x) :
    update_parent_transform_matrix_system s = PassResult.panicked := by
  rw [pass_panicked_iff s hE]
  intro hall
  have h := hall x hr
  rw [hxm] at h
  simp at h

/-- C6 witness: entity `1` holds `Parent(0)` but no matrix and is the root's
child; the pass panics. -/
theorem C6_witness :
    missStore.parent 1 = some 0 ∧ missStore.matrix 1 = none
    ∧ update_parent_transform_matrix_system missStore = PassResult.panicked :=
  ⟨rfl, rfl,
    C6_missing_matrix_fatal missStore (by decide) 1 0 rfl rfl
      ⟨0, ⟨by decide, rfl, rfl⟩, Below.step 1 0 (by decide) rfl Below.refl⟩⟩

theorem bool_eq_of_iff {a b : Bool} (h : a = true ↔ b = true) : a = b := by
  cases a <;> cases b <;> simp_all

/-- C7: for an acyclic store, the World Matrices produced by the pass do not
depend on sibling order.  Sibling order is induced by store iteration order,
so we compare a store with any permutation of its entity list carrying the
same components: the two runs have the same outcome and bit-identical
matrices for every entity. -/
theorem C7_sibling_order_irrelevant (s t : Store M) (depth : Nat → Nat)
    (hES : s.entities.Nodup) (hET : t.entities.Nodup)
    (hperm : t.entities.Perm s.entities)
    (hpar : ∀ x, t.parent x = s.parent x)
    (hmat : ∀ x, t.matrix x = s.matrix x)
    (hforest : ∀ c ∈ s.entities, ∀ p ∈ s.entities,
      s.parent c = some p → depth p < depth c) :
    (update_parent_transform_matrix_system t).isOk
      = (update_parent_transform_matrix_system s).isOk
    ∧ ∀ x, passMatrixAt t x = passMatrixAt s x := by
  have hmem : ∀ x, x ∈ t.entities ↔ x ∈ s.entities := fun x => hperm.mem_iff
  have hsome : ∀ x, (t.matrix x).isSome = (s.matrix x).isSome := fun x => by
    rw [hmat]
  have hreach : ∀ x, Reach t x ↔ Reach s x := reach_congr hmem hpar hsome
  have hok : (update_parent_transform_matrix_system t).isOk
      = (update_parent_transform_matrix_system s).isOk := by
    refine bool_eq_of_iff ?_
    rw [pass_isOk_iff t hET, pass_isOk_iff s hES]
    constructor
    · intro h x hx
      rw [← hsome]
      exact h x ((hreach x).mpr hx)
    · intro h x hx
      rw [hsome]
      exact h x ((hreach x).mp hx)
  refine ⟨hok, ?_⟩
  intro x
  cases hrs : update_parent_transform_matrix_system s with
  | ok m =>
    have hokt : (update_parent_transform_matrix_system t).isOk = true := by
      rw [hok, hrs]
      rfl
    obtain ⟨mt, hmt⟩ := isOk_iff_exists.mp hokt
    rw [passMatrixAt_eq hmt, passMatrixAt_eq hrs]
    by_cases hx : Reach s x
    · obtain ⟨Q, hQ⟩ := reach_iff_rchain.mp hx
      have hQt : RChain t x Q := (rchain_congr hmem hpar hsome).mpr hQ
      rw [pass_value t hET hmt x Q hQt, pass_value s hES hrs x Q hQ]
      exact chainProdR_congr hmat Q
    · rw [pass_frame t hET hmt x (fun h => hx ((hreach x).mp h)),
        pass_frame s hES hrs x hx]
      exact hmat x
  | panicked =>
    have hsf : (update_parent_transform_matrix_system s).isOk = false := by
      rw [hrs]
      rfl
    have htf : (update_parent_transform_matrix_system t).isOk = false := by
      rw [hok, hsf]
    rw [passMatrixAt_of_not_ok htf, passMatrixAt_of_not_ok hsf]
  | outOfFuel => exact absurd hrs (pass_ne_outOfFuel s hES)

/-- C7 witness: a root with two children, with the sibling order swapped by
permuting the entity list. -/
theorem C7_witness :
    (update_parent_transform_matrix_system forkStoreSwapped).isOk
      = (update_parent_transform_matrix_system forkStore).isOk
    ∧ ∀ x, passMatrixAt forkStoreSwapped x = passMatrixAt forkStore x :=
  C7_sibling_order_irrelevant forkStore forkStoreSwapped (fun x => x)
    (by decide) (by decide) (by decide) (fun _ => rfl) (fun _ => rfl)
    (by decide)

/-- The store obtained by running the pass on `chainStore` and then removing
the child's Parent — the re-parenting scenario of C8, without the upstream
local-matrix rewrite in between. -/
def reparentedAfterPass : Store Nat := dropParent (passStore chainStore) 1

/-- C8 counterexample: re-parenting between two invocations does *not* give
matrices that reflect only the new topology.  After the first pass child `1`
holds 6 = 2·3; removing its Parent makes it a root, and the second pass
leaves it at 6 — while its Local Matrix was 3 and the new topology (a lone
root) calls for 3.  The stale factor 2 of the old parent persists. -/
theorem C8_counterexample :
    (update_parent_transform_matrix_system reparentedAfterPass).isOk = true
    ∧ chainStore.matrix 1 = some 3
    ∧ passMatrixAt reparentedAfterPass 1 = some 6
    ∧ ¬ passMatrixAt reparentedAfterPass 1 = chainStore.matrix 1 := by
  decide

/-- C8 (amended): re-parenting is reflected cleanly only when the Local
Matrices are restored (as the upstream per-frame conversion does) before the
next invocation.  On the re-parented store carrying the original local
matrices: an entity whose Parent was removed resolves to exactly its Local
Matrix, and an entity re-targeted at parent `q` resolves to (q's resolved
World Matrix) * (its Local Matrix) — with no contribution from the previous
parent in either case. -/
theorem C8_amended_reparenting (s : Store M) (hE : s.entities.Nodup)
    (e q : Nat) :
    ((update_parent_transform_matrix_system (dropParent s e)).isOk = true →
      passMatrixAt (dropParent s e) e = s.matrix e)
    ∧ ((update_parent_transform_matrix_system (setParent s e q)).isOk = true →
        Reach (setParent s e q) e →
        ∃ wq l, passMatrixAt (setParent s e q) q = some wq
          ∧ s.matrix e = some l
          ∧ passMatrixAt (setParent s e q) e = some (wq * l)) := by
  constructor
  · intro hok
    have hE2 : (dropParent s e).entities.Nodup := hE
    obtain ⟨m, hm⟩ := isOk_iff_exists.mp hok
    have hpe : (dropParent s e).parent e = none := by
      show (if e = e then none else s.parent e) = none
      rw [if_pos rfl]
    by_cases hre : Reach (dropParent s e) e
    · obtain ⟨Q, hQ⟩ := reach_iff_rchain.mp hre
      cases hQ with
      | root _ _ _ _ =>
        rw [passMatrixAt_eq hm, pass_value _ hE2 hm e [e]
          (RChain.root e (by assumption) (by assumption) (by assumption))]
        rfl
      | step _ p P _ hxp _ => rw [hpe] at hxp; cases hxp
    · rw [passMatrixAt_eq hm]
      exact pass_frame _ hE2 hm e hre
  · intro hok hre
    have hE3 : (setParent s e q).entities.Nodup := hE
    obtain ⟨m, hm⟩ := isOk_iff_exists.mp hok
    have hpe : (setParent s e q).parent e = some q := by
      show (if e = e then some q else s.parent e) = some q
      rw [if_pos rfl]
    obtain ⟨Q, hQ⟩ := reach_iff_rchain.mp hre
    obtain ⟨Q', rfl, hQ'⟩ := rchain_parent_inv hQ hpe
    have hsomeQ : ∀ y ∈ Q', ((setParent s e q).matrix y).isSome = true :=
      fun y hy =>
        pass_reach_isSome _ hE3 hm y (rchain_mem_reach hQ' y hy)
    obtain ⟨wq, hwq⟩ := chainProdR_isSome hQ' hsomeQ
    obtain ⟨l, hl⟩ := Option.isSome_iff_exists.mp
      (pass_reach_isSome _ hE3 hm e hre)
    refine ⟨wq, l, ?_, hl, ?_⟩
    · rw [passMatrixAt_eq hm, pass_value _ hE3 hm q Q' hQ', hwq]
    · rw [passMatrixAt_eq hm, pass_value _ hE3 hm e (e :: Q') hQ,
        chainProdR_cons_some (rchain_ne_nil hQ') hwq hl]

/-- C8 amended witness: removing the child's Parent on the two-entity chain
with its original local matrices. -/
theorem C8_amended_witness :
    ((update_parent_transform_matrix_system (dropParent chainStore 1)).isOk
        = true →
      passMatrixAt (dropParent chainStore 1) 1 = chainStore.matrix 1)
    ∧ ((update_parent_transform_matrix_system
          (setParent chainStore 1 0)).isOk = true →
        Reach (setParent chainStore 1 0) 1 →
        ∃ wq l, passMatrixAt (setParent chainStore 1 0) 0 = some wq
          ∧ chainStore.matrix 1 = some l
          ∧ passMatrixAt (setParent chainStore 1 0) 1 = some (wq * l)) :=
  C8_amended_reparenting chainStore (by decide) 1 0

theorem rchain_eraseEnt_iff {s : Store M} {e : Nat}
    (hp : s.parent e = none) (hm : s.matrix e = none) :
    ∀ {x : Nat} {Q : List Nat},
      RChain (eraseEnt s e) x Q ↔ RChain s x Q := by
  have hpar : ∀ x, (eraseEnt s e).parent x = s.parent x := by
    intro x
    show (if x = e then none else s.parent x) = s.parent x
    by_cases hx : x = e
    · rw [if_pos hx, hx, hp]
    · rw [if_neg hx]
  have hmat : ∀ x, (eraseEnt s e).matrix x = s.matrix x := by
    intro x
    show (if x = e then none else s.matrix x) = s.matrix x
    by_cases hx : x = e
    · rw [if_pos hx, hx, hm]
    · rw [if_neg hx]
  intro x Q
  constructor
  · exact rchain_map (fun y hy => List.erase_subset _ _ hy)
      (fun y => (hpar y).symm)
      (fun y => by rw [hmat])
  · intro h
    induction h with
    | root y hy hyp hym =>
      have hne : y ≠ e := by
        rintro rfl
        rw [hm] at hym
        simp at hym
      exact RChain.root y ((List.mem_erase_of_ne hne).mpr hy)
        (by rw [hpar]; exact hyp) (by rw [hmat]; exact hym)
    | step y p P hy hyp _ ih =>
      have hne : y ≠ e := by
        rintro rfl
        rw [hp] at hyp
        cases hyp
      exact RChain.step y p P ((List.mem_erase_of_ne hne).mpr hy)
        (by rw [hpar]; exact hyp) ih

/-- C9: an entity with neither component is invisible to the pass: it is
unreachable, its (absent) components are unchanged, and its presence never
causes the pass to fail — erasing it from the store changes neither the
outcome kind nor any other entity's resulting matrix. -/
theorem C9_untouched_entities (s : Store M) (hE : s.entities.Nodup) (e : Nat)
    (hp : s.parent e = none) (hm : s.matrix e = none) :
    ¬ Reach s e
    ∧ ((update_parent_transform_matrix_system s).isOk = true →
        passMatrixAt s e = none)
    ∧ (update_parent_transform_matrix_system (eraseEnt s e)).isOk
        = (update_parent_transform_matrix_system s).isOk
    ∧ (∀ x, x ≠ e → passMatrixAt (eraseEnt s e) x = passMatrixAt s x) := by
  have hmat : ∀ x, (eraseEnt s e).matrix x = s.matrix x := by
    intro x
    show (if x = e then none else s.matrix x) = s.matrix x
    by_cases hx : x = e
    · rw [if_pos hx, hx, hm]
    · rw [if_neg hx]
  have hnr : ¬ Reach s e := by
    intro h
    obtain ⟨Q, hQ⟩ := reach_iff_rchain.mp h
    cases hQ with
    | root _ _ _ hym => rw [hm] at hym; simp at hym
    | step _ p P _ hyp _ => rw [hp] at hyp; cases hyp
  have hEu : (eraseEnt s e).entities.Nodup := hE.erase e
  have hreach : ∀ x, Reach (eraseEnt s e) x ↔ Reach s x := by
    intro x
    rw [reach_iff_rchain, reach_iff_rchain]
    constructor
    · rintro ⟨Q, hQ⟩
      exact ⟨Q, (rchain_eraseEnt_iff hp hm).mp hQ⟩
    · rintro ⟨Q, hQ⟩
      exact ⟨Q, (rchain_eraseEnt_iff hp hm).mpr hQ⟩
  have hok : (update_parent_transform_matrix_system (eraseEnt s e)).isOk
      = (update_parent_transform_matrix_system s).isOk := by
    refine bool_eq_of_iff ?_
    rw [pass_isOk_iff _ hEu, pass_isOk_iff s hE]
    constructor
    · intro h x hx
      rw [← hmat]
      exact h x ((hreach x).mpr hx)
    · intro h x hx
      rw [hmat]
      exact h x ((hreach x).mp hx)
  refine ⟨hnr, ?_, hok, ?_⟩
  · intro h
    obtain ⟨m, hmok⟩ := isOk_iff_exists.mp h
    rw [passMatrixAt_eq hmok, pass_frame s hE hmok e hnr, hm]
  · intro x _
    cases hrs : update_parent_transform_matrix_system s with
    | ok m =>
      have hoku : (update_parent_transform_matrix_system
          (eraseEnt s e)).isOk = true := by
        rw [hok, hrs]
        rfl
      obtain ⟨mu, hmu⟩ := isOk_iff_exists.mp hoku
      rw [passMatrixAt_eq hmu, passMatrixAt_eq hrs]
      by_cases hx : Reach s x
      · obtain ⟨Q, hQ⟩ := reach_iff_rchain.mp hx
        rw [pass_value _ hEu hmu x Q ((rchain_eraseEnt_iff hp hm).mpr hQ),
          pass_value s hE hrs x Q hQ]
        exact chainProdR_congr hmat Q
      · rw [pass_frame _ hEu hmu x (fun h => hx ((hreach x).mp h)),
          pass_frame s hE hrs x hx]
        exact hmat x
    | panicked =>
      have hsf : (update_parent_transform_matrix_system s).isOk = false := by
        rw [hrs]
        rfl
      have huf : (update_parent_transform_matrix_system
          (eraseEnt s e)).isOk = false := by
        rw [hok, hsf]
      rw [passMatrixAt_of_not_ok huf, passMatrixAt_of_not_ok hsf]
    | outOfFuel => exact absurd hrs (pass_ne_outOfFuel s hE)

/-- C9 witness: a componentless entity `1` beside a root. -/
theorem C9_witness :
    ¬ Reach junkStore 1
    ∧ ((update_parent_transform_matrix_system junkStore).isOk = true →
        passMatrixAt junkStore 1 = none)
    ∧ (update_parent_transform_matrix_system (eraseEnt junkStore 1)).isOk
        = (update_parent_transform_matrix_system junkStore).isOk
    ∧ (∀ x, x ≠ 1 →
        passMatrixAt (eraseEnt junkStore 1) x = passMatrixAt junkStore x) :=
  C9_untouched_entities junkStore (by decide) 1 (by decide) (by decide)

/-- C10: on every finite store — cyclic or dangling Parent relations
included — the pass terminates: it never exhausts the fuel bound, and any
larger fuel budget produces the same outcome.  Reachability from a root
coincides with having an upward parent chain ending at a root, every
reachable entity resolves to the product along that (unique) chain — its
Local Matrix enters exactly once — and an entity with no rooted chain is
never visited: its matrix is bit-identical before and after. -/
theorem C10_always_terminates (s : Store M) (hE : s.entities.Nodup) :
    update_parent_transform_matrix_system s ≠ PassResult.outOfFuel
    ∧ (∀ fuel, s.entities.length + 1 ≤ fuel →
        PassEquiv (runWithFuel s fuel) (update_parent_transform_matrix_system s))
    ∧ (∀ x, Reach s x ↔ ∃ Q, RChain s x Q)
    ∧ ((update_parent_transform_matrix_system s).isOk = true →
        (∀ x, (∀ Q, ¬ RChain s x Q) → passMatrixAt s x = s.matrix x)
        ∧ (∀ x Q, RChain s x Q → passMatrixAt s x = chainProdR s Q)) := by
  refine ⟨pass_ne_outOfFuel s hE, ?_, fun x => reach_iff_rchain, ?_⟩
  · intro fuel hfuel
    have hA := runWithFuel_spec s hE fuel hfuel
    have hB := pass_spec s hE
    by_cases hall : ∀ x, Reach s x → (s.matrix x).isSome = true
    · obtain ⟨mA, hmA⟩ := hA.2.1 hall
      obtain ⟨mB, hmB⟩ := hB.2.1 hall
      rw [hmA, hmB]
      show ∀ x, mA x = mB x
      intro x
      by_cases hx : Reach s x
      · obtain ⟨Q, hQ⟩ := reach_iff_rchain.mp hx
        rw [(hA.2.2 mA hmA).2.2 x hx Q hQ, (hB.2.2 mB hmB).2.2 x hx Q hQ]
      · rw [(hA.2.2 mA hmA).2.1 x hx, (hB.2.2 mB hmB).2.1 x hx]
    · have hAp : runWithFuel s fuel = PassResult.panicked := by
        cases hr : runWithFuel s fuel with
        | ok m => exact absurd ((hA.2.2 m hr).1) hall
        | panicked => rfl
        | outOfFuel => exact absurd hr hA.1
      have hBp : update_parent_transform_matrix_system s
          = PassResult.panicked := (pass_panicked_iff s hE).mpr hall
      rw [hAp, hBp]
      trivial
  · intro hok
    obtain ⟨m, hm⟩ := isOk_iff_exists.mp hok
    constructor
    · intro x hx
      rw [passMatrixAt_eq hm]
      refine pass_frame s hE hm x ?_
      intro h
      obtain ⟨Q, hQ⟩ := reach_iff_rchain.mp h
      exact hx Q hQ
    · intro x Q hQ
      rw [passMatrixAt_eq hm]
      exact pass_value s hE hm x Q hQ

/-- C10 witness: the cyclic store — the pass still terminates there. -/
theorem C10_witness :
    update_parent_transform_matrix_system cycStore ≠ PassResult.outOfFuel
    ∧ (∀ fuel, cycStore.entities.length + 1 ≤ fuel →
        PassEquiv (runWithFuel cycStore fuel)
          (update_parent_transform_matrix_system cycStore))
    ∧ (∀ x, Reach cycStore x ↔ ∃ Q, RChain cycStore x Q)
    ∧ ((update_parent_transform_matrix_system cycStore).isOk = true →
        (∀ x, (∀ Q, ¬ RChain cycStore x Q) →
          passMatrixAt cycStore x = cycStore.matrix x)
        ∧ (∀ x Q, RChain cycStore x Q →
          passMatrixAt cycStore x = chainProdR cycStore Q)) :=
  C10_always_terminates cycStore (by decide)

end Coldham
